import Mathlib

/-!
Verification of the netCDF-4 in-memory metadata model (nc4internal.h).

The repository provides the header `include/nc4internal.h`, which fixes the
data model: the common identity header `NC_OBJ` (sort tag, name, id,
crc32 name hash), the per-kind metadata structs, the per-file registry
`NC_FILE_INFO` with its monotone id counters and flat id tables, the
external-id bit masks, and the reserved-attribute table interface.  The
function bodies (NCindex operations, name checking, recursive group
deletion, the reserved-attribute binary search) are declared in the header
but their implementations are not part of this tree; those operations are
modelled from the specification, as indicated in each doc comment.
-/

/-! ## Error kinds (spec section 7) -/

/-- Error kinds of the metadata core, as enumerated by the specification. -/
inductive NCerror where
  | NameInvalid
  | NameCollision
  | NotFound
  | TypeInUse
  | CyclicTypeDefinition
  | InvalidModeForOperation
  | DimensionInUse
  | ScopeViolation
deriving DecidableEq, Repr

/-! ## Identity header (nc4internal.h lines 41, 104-109) -/

/-- Sort tag of a metadata object, from `typedef enum {NCNAT, NCVAR, NCDIM,
NCATT, NCTYP, NCFLD, NCGRP} NC_SORT;`. -/
inductive NC_SORT where
  | NCNAT
  | NCVAR
  | NCDIM
  | NCATT
  | NCTYP
  | NCFLD
  | NCGRP
deriving DecidableEq, Repr

/-- The sort tags actually carried by entities: one per struct embedding an
`NC_OBJ` header (NC_GRP_INFO, NC_VAR_INFO, NC_DIM_INFO, NC_ATT_INFO,
NC_TYPE_INFO, NC_FIELD_INFO).  `NCNAT` (not-a-type) is never an entity's
sort. -/
def entityKinds : List NC_SORT :=
  [.NCGRP, .NCVAR, .NCDIM, .NCATT, .NCTYP, .NCFLD]

/-- The common identity header `NC_OBJ`: sort tag, name, numeric id and the
precomputed name hash (`unsigned int hashkey; /* crc32(name) */`). -/
structure NC_OBJ where
  sort : NC_SORT
  name : String
  id : Nat
  hashkey : Nat
deriving DecidableEq, Repr

/-! ## Name hashing: crc32 (nc4internal.h line 108) -/

/-- One shift step of the bitwise CRC-32 computation, reflected polynomial
`0xEDB88320`. -/
def crc32Step (c : Nat) : Nat :=
  if c % 2 = 1 then Nat.xor (c / 2) 0xEDB88320 else c / 2

/-- Fold one input byte into a running CRC-32 value. -/
def crc32Update (c b : Nat) : Nat :=
  Nat.iterate crc32Step 8 (Nat.xor c (b % 256))

/-- CRC-32 (IEEE 802.3) of a byte sequence, the hash named by the header
comment `hashkey; /* crc32(name) */`. -/
def crc32 (bytes : List Nat) : Nat :=
  Nat.xor (bytes.foldl crc32Update 0xFFFFFFFF) 0xFFFFFFFF

/-- UTF-8 encoding of one Unicode code point, as a list of byte values. -/
def utf8Enc (c : Nat) : List Nat :=
  if c < 0x80 then [c]
  else if c < 0x800 then
    [0xC0 ||| (c >>> 6), 0x80 ||| (c &&& 0x3F)]
  else if c < 0x10000 then
    [0xE0 ||| (c >>> 12), 0x80 ||| ((c >>> 6) &&& 0x3F), 0x80 ||| (c &&& 0x3F)]
  else
    [0xF0 ||| (c >>> 18), 0x80 ||| ((c >>> 12) &&& 0x3F),
     0x80 ||| ((c >>> 6) &&& 0x3F), 0x80 ||| (c &&& 0x3F)]

/-- Byte sequence of a name, as the C code sees it (UTF-8). -/
def nameBytes (s : String) : List Nat :=
  (s.data.map (fun ch => utf8Enc ch.toNat)).flatten

/-- Hash of an object name: crc32 of its bytes, per the header comment on
`NC_OBJ.hashkey`. -/
def hashName (s : String) : Nat :=
  crc32 (nameBytes s)

/-- The hash invariant documented on the `hashkey` field: the stored hash is
the crc32 of the stored name. -/
def hashInv (o : NC_OBJ) : Prop :=
  o.hashkey = hashName o.name

/-- Rename an object, recomputing the name hash (the discipline every
name-changing operation must follow). -/
def objRename (o : NC_OBJ) (n : String) : NC_OBJ :=
  { o with name := n, hashkey := hashName n }

/-- Rename an object without recomputing the hash (the faulty variant). -/
def objRenameNoRehash (o : NC_OBJ) (n : String) : NC_OBJ :=
  { o with name := n }

/-! ## External id packing (nc4internal.h lines 36-38, 266) -/

/-- Mask selecting the file part of an external ncid, `#define FILE_ID_MASK
(0xffff0000)`. -/
def FILE_ID_MASK : Nat := 0xffff0000

/-- Mask selecting the group part of an external ncid, `#define GRP_ID_MASK
(0x0000ffff)`. -/
def GRP_ID_MASK : Nat := 0x0000ffff

/-- Shift distance between the two halves, `#define ID_SHIFT (16)`. -/
def ID_SHIFT : Nat := 16

/-- Compose an externally visible ncid from a file identifier and a group
identifier: the file id goes in the upper 16 bits, the group id in the
lower 16 bits. -/
def make_ncid (fileid grpid : Nat) : Nat :=
  (fileid <<< ID_SHIFT) ||| (grpid &&& GRP_ID_MASK)

/-- Extract the file identifier from an ncid with `FILE_ID_MASK` and
`ID_SHIFT`. -/
def ncid_fileid (ncid : Nat) : Nat :=
  (ncid &&& FILE_ID_MASK) >>> ID_SHIFT

/-- Extract the group identifier from an ncid with `GRP_ID_MASK`. -/
def ncid_grpid (ncid : Nat) : Nat :=
  ncid &&& GRP_ID_MASK

/-- Maximum value of the C type `short`, `#define X_SHORT_MAX 32767`
(nc4internal.h line 58).  The per-file group-id counter `next_nc_grpid`
is declared `short` (line 266). -/
def X_SHORT_MAX : Nat := 32767

/-- A group id is allocatable by the `short` counter `next_nc_grpid` iff it
is representable as a nonnegative `short`. -/
def validGrpId (i : Nat) : Prop :=
  i ≤ X_SHORT_MAX

instance (i : Nat) : Decidable (validGrpId i) := by
  unfold validGrpId; infer_instance

/-! ## Indexed container NCindex (spec section 4.1) -/

/-- Modelled from the spec: the Indexed Container `NCindex` (the header's
`NCindex` instances; the implementation `ncindex.c` is not part of this
tree).  The container is the insertion-ordered sequence of live objects;
the name and id indices are modelled as searches over that sequence. -/
abbrev NCindex := List NC_OBJ

/-- Modelled from the spec: `lookup_by_name(name)` returns the live object
with the given normalized name, or "not found". -/
def ncindexlookup (idx : NCindex) (name : String) : Option NC_OBJ :=
  idx.find? (fun o => o.name == name)

/-- Modelled from the spec: `lookup_by_id(id)` returns the live object with
the given id, or "not found". -/
def ncindexfindid (idx : NCindex) (id : Nat) : Option NC_OBJ :=
  idx.find? (fun o => o.id == id)

/-- Modelled from the spec: `insert(obj)` fails with `NameCollision` when an
object with the same normalized name already exists in this container,
otherwise appends to the insertion order. -/
def ncindexinsert (idx : NCindex) (o : NC_OBJ) : Except NCerror NCindex :=
  if idx.any (fun p => p.name == o.name) then .error .NameCollision
  else .ok (idx ++ [o])

/-- Modelled from the spec: `remove(obj)` removes the object from the ordered
sequence (and hence from both indices); it does not renumber the remaining
objects' ids or shift their relative order. -/
def ncindexremove (idx : NCindex) (o : NC_OBJ) : NCindex :=
  idx.filter (fun p => !(p.id == o.id))

/-- Modelled from the spec: `iterate()` enumerates the live objects in
insertion order. -/
def ncindexiterate (idx : NCindex) : List NC_OBJ :=
  idx

/-- An operation on an indexed container. -/
inductive IdxOp where
  | ins (o : NC_OBJ)
  | rem (o : NC_OBJ)

/-- Apply one operation; a failed insert leaves the container unchanged. -/
def idxStep (idx : NCindex) (op : IdxOp) : NCindex :=
  match op with
  | .ins o =>
    match ncindexinsert idx o with
    | .ok idx2 => idx2
    | .error _ => idx
  | .rem o => ncindexremove idx o

/-- Run a sequence of operations from the empty container. -/
def idxRun (ops : List IdxOp) : NCindex :=
  ops.foldl idxStep []

/-- Names are pairwise distinct in a container. -/
def namesNodup (idx : NCindex) : Prop :=
  (idx.map NC_OBJ.name).Nodup

/-- Concrete object used in witness instantiations. -/
def wObjA : NC_OBJ := ⟨.NCDIM, "a", 0, 0⟩

/-- Concrete object used in witness instantiations. -/
def wObjB : NC_OBJ := ⟨.NCVAR, "b", 1, 0⟩

/-- Concrete operation sequence used in witness instantiations. -/
def wOps : List IdxOp := [.ins wObjA, .ins wObjB, .rem wObjA]

/-! ## Type registry reference counting (nc4internal.h lines 195-221) -/

/-- A registered user-defined type: identity data plus the reference count
field `unsigned rc; /* Ref. count of objects using this type */` of
`NC_TYPE_INFO`. -/
structure NCTypeInfo where
  id : Nat
  name : String
  rc : Nat
deriving DecidableEq, Repr

/-- The user-defined types registered in a container. -/
abbrev TypeList := List NCTypeInfo

/-- Look up a registered type by id. -/
def typeFind (ts : TypeList) (tid : Nat) : Option NCTypeInfo :=
  ts.find? (fun t => t.id == tid)

/-- Modelled from the spec: `release(type)` decrements the reference count
(the bodies of `nc4_type_free` and its callers are not under src/). -/
def typeRelease (ts : TypeList) (tid : Nat) : TypeList :=
  ts.map (fun t => if t.id = tid then { t with rc := t.rc - 1 } else t)

/-- Release a type reference `n` times. -/
def typeReleaseN (ts : TypeList) (tid : Nat) (n : Nat) : TypeList :=
  Nat.iterate (fun l => typeRelease l tid) n ts

/-- Modelled from the spec: `delete(type)` (`nc4_type_list_del`, body not
under src/) fails with `TypeInUse` while the reference count is nonzero,
leaving the registry unchanged; with a zero reference count it removes the
type. -/
def nc4_type_list_del (ts : TypeList) (tid : Nat) : TypeList × Option NCerror :=
  match typeFind ts tid with
  | none => (ts, some .NotFound)
  | some t =>
    if t.rc > 0 then (ts, some .TypeInUse)
    else (ts.filter (fun p => !(p.id == tid)), none)

/-! ## Name checking and normalization (nc4internal.h lines 366-370) -/

/-- Maximum permissible name length `NC_MAX_NAME` (defined in netcdf.h, not
under src/; the standard value is 256). -/
def NC_MAX_NAME : Nat := 256

/-- The NUL character, forbidden inside a name. -/
def nulChar : Char := Char.ofNat 0

/-- Modelled from the spec: the Unicode canonical-normalization collaborator
(utf8proc, not under src/), acting as the identity on input that is
already in normal form. -/
def nc_utf8proc (cs : List Char) : List Char :=
  cs

/-- Modelled from the spec: `normalize(raw_name)` (`nc4_check_name` together
with `nc4_normalize_name`, bodies not under src/) applies Unicode
canonical normalization — abstracted as the parameter `uNorm` — and fails
with `NameInvalid` exactly on empty names, names longer than
`NC_MAX_NAME`, and names with an embedded NUL byte; otherwise it yields
the normalized name. -/
def nc4_check_name (uNorm : List Char → List Char) (raw : List Char) :
    Except NCerror (List Char) :=
  if raw.length = 0 then .error .NameInvalid
  else if raw.length > NC_MAX_NAME then .error .NameInvalid
  else if raw.contains nulChar then .error .NameInvalid
  else .ok (uNorm raw)

/-! ## Graph assembly from a backend description (nc4internal.h line 236) -/

/-- Modelled from the spec: on `open`, the objects of one kind in one group
are added to that group's container in the backend's enumeration order,
each receiving as id the current number of objects in the container (this
realizes the header's comment "Note that this is the list of vars with
position == varid"). -/
def assembleKind (sort : NC_SORT) (names : List String) : List NC_OBJ :=
  names.foldl (fun acc n => acc ++ [⟨sort, n, acc.length, hashName n⟩]) []

/-! ## Entity creation discipline (spec section 3) -/

/-- State of a scope creating entities: the objects created so far and the
monotone id counter. -/
structure ObjSys where
  objs : List NC_OBJ
  nextid : Nat

/-- The initial empty scope. -/
def objSysInit : ObjSys :=
  ⟨[], 0⟩

/-- Modelled from the spec: creating an entity of a given kind normalizes
and validates the name, assigns the next monotone id, and precomputes the
crc32 name hash.  `NCNAT` is not an entity kind and creates nothing; an
invalid name creates nothing. -/
def entityCreate (s : ObjSys) (k : NC_SORT) (raw : List Char) : ObjSys :=
  if k = .NCNAT then s
  else
    match nc4_check_name nc_utf8proc raw with
    | .error _ => s
    | .ok norm =>
      ⟨s.objs ++ [⟨k, String.mk norm, s.nextid, hashName (String.mk norm)⟩],
        s.nextid + 1⟩

/-- Run a sequence of creation commands from the empty scope. -/
def entityRun (cmds : List (NC_SORT × List Char)) : ObjSys :=
  cmds.foldl (fun s c => entityCreate s c.1 c.2) objSysInit

/-- Invariant of a scope: every object carries an entity kind, a non-empty
name, the precomputed name hash, and an id below the counter; ids strictly
increase in creation order. -/
def entityInv (s : ObjSys) : Prop :=
  (∀ o ∈ s.objs, o.sort ∈ entityKinds ∧ o.name ≠ "" ∧
    o.hashkey = hashName o.name ∧ o.id < s.nextid) ∧
  (s.objs.map NC_OBJ.id).Pairwise (· < ·)

/-! ## Reserved attributes (nc4internal.h lines 398-423) -/

/-- Reserved attribute entry, `typedef struct NC_reservedatt { const char*
name; int flags; }`. -/
structure NC_reservedatt where
  name : String
  flags : Nat
deriving DecidableEq, Repr

/-- Hidden dimscale-related, per-variable attributes; immutable and
unreadable thru API (`#define DIMSCALEFLAG 1`). -/
def DIMSCALEFLAG : Nat := 1

/-- Readonly global attributes; readable, but immutable thru the API
(`#define READONLYFLAG 2`). -/
def READONLYFLAG : Nat := 2

/-- Subset of readonly flags; readable by name only thru the API
(`#define NAMEONLYFLAG 4`). -/
def NAMEONLYFLAG : Nat := 4

/-- C string comparison on code points, as `strcmp` used by the reserved
attribute binary search. -/
def strcmp : List Char → List Char → Ordering
  | [], [] => .eq
  | [], _ :: _ => .lt
  | _ :: _, [] => .gt
  | a :: as, b :: bs =>
    if a < b then .lt
    else if b < a then .gt
    else strcmp as bs

/-- Strict order on reserved entries induced by `strcmp` on their names. -/
def reservedLt (a b : NC_reservedatt) : Prop :=
  strcmp a.name.data b.name.data = .lt

instance (a b : NC_reservedatt) : Decidable (reservedLt a b) := by
  unfold reservedLt
  infer_instance

/-- Modelled from the spec: the fixed, sorted static table of system-reserved
attribute names (its defining translation unit is not under src/; the
names are the generic reserved attributes listed at the end of
nc4internal.h, with the dimscale-related per-variable entries hidden and
the global `_Format` entry read-only). -/
def NC_reserved : List NC_reservedatt :=
  [⟨"CLASS", READONLYFLAG ||| DIMSCALEFLAG⟩,
   ⟨"DIMENSION_LIST", READONLYFLAG ||| DIMSCALEFLAG⟩,
   ⟨"NAME", READONLYFLAG ||| DIMSCALEFLAG⟩,
   ⟨"REFERENCE_LIST", READONLYFLAG ||| DIMSCALEFLAG⟩,
   ⟨"_Format", READONLYFLAG⟩]

/-- Modelled from the spec: binary search over a sorted table, splitting at
the middle entry and descending into the half that can still hold the
name. -/
def NC_binsearch (name : List Char) (tbl : List NC_reservedatt) :
    Option NC_reservedatt :=
  if h : tbl.length = 0 then none
  else
    if strcmp (tbl.get ⟨tbl.length / 2, by omega⟩).name.data name = .eq then
      some (tbl.get ⟨tbl.length / 2, by omega⟩)
    else if strcmp (tbl.get ⟨tbl.length / 2, by omega⟩).name.data name = .lt then
      NC_binsearch name (tbl.drop (tbl.length / 2 + 1))
    else
      NC_binsearch name (tbl.take (tbl.length / 2))
termination_by tbl.length
decreasing_by
  · simp only [List.length_drop]
    omega
  · simp only [List.length_take]
    omega

/-- Modelled from the spec: `NC_findreserved` binary-searches the sorted
static reserved-attribute table. -/
def NC_findreserved (name : String) : Option NC_reservedatt :=
  NC_binsearch name.data NC_reserved

/-- Modelled from the spec: whether an attribute value may be modified
through the public surface; gated solely by the flags of the reserved
entry, if any. -/
def attModifiable (name : String) : Bool :=
  match NC_findreserved name with
  | some e => e.flags &&& READONLYFLAG == 0 && e.flags &&& DIMSCALEFLAG == 0
  | none => true

/-- Modelled from the spec: whether an attribute shows up in enumeration;
gated solely by the flags of the reserved entry, if any. -/
def attEnumerated (name : String) : Bool :=
  match NC_findreserved name with
  | some e => e.flags &&& DIMSCALEFLAG == 0
  | none => true

/-- Modelled from the spec: whether an attribute is accessible by name only;
gated solely by the flags of the reserved entry, if any. -/
def attNameOnly (name : String) : Bool :=
  match NC_findreserved name with
  | some e => e.flags &&& NAMEONLYFLAG != 0
  | none => false

/-! ## File-level registry invariants (nc4internal.h lines 249-289) -/

/-- A flat-table entry list: each entry is an object id paired with the id
of its containing group (for a group: its parent; the root is its own
parent). -/
abbrev IdTable := List (Nat × Nat)

/-- The ids present in a flat table. -/
def tblIds (t : IdTable) : List Nat :=
  t.map Prod.fst

/-- The per-file registry distilled from `NC_FILE_INFO`: the three id
counters `next_nc_grpid`, `next_typeid`, `next_dimid` and the three flat
id tables `allgroups`, `alltypes`, `alldims`. -/
structure FileReg where
  next_nc_grpid : Nat
  next_typeid : Nat
  next_dimid : Nat
  allgroups : IdTable
  alltypes : IdTable
  alldims : IdTable
deriving DecidableEq, Repr

/-- The registry right after `nc4_build_root_grp`: the root group has id 0
and is its own parent, and the group counter moves to 1. -/
def fileRegInit : FileReg :=
  ⟨1, 0, 0, [(0, 0)], [], []⟩

/-- A registry operation: create or delete a group, type or dimension. -/
inductive RegOp where
  | mkGrp (parent : Nat)
  | mkTyp (container : Nat)
  | mkDim (container : Nat)
  | delGrp (gid : Nat)
  | delTyp (tid : Nat)
  | delDim (did : Nat)

/-- Modelled from the spec: one registry step (the list add/del function
bodies are not under src/).  Creation requires a live containing group,
assigns the next counter value and advances the counter; a group is
deleted only when it is not the root and nothing is contained in it (the
recursive delete of section 4.3 bottoms out in such leaf deletions);
deletion removes the id from its flat table and never rewinds a
counter. -/
def regStep (s : FileReg) (op : RegOp) : FileReg :=
  match op with
  | .mkGrp parent =>
    if parent ∈ tblIds s.allgroups then
      { s with allgroups := s.allgroups ++ [(s.next_nc_grpid, parent)],
               next_nc_grpid := s.next_nc_grpid + 1 }
    else s
  | .mkTyp c =>
    if c ∈ tblIds s.allgroups then
      { s with alltypes := s.alltypes ++ [(s.next_typeid, c)],
               next_typeid := s.next_typeid + 1 }
    else s
  | .mkDim c =>
    if c ∈ tblIds s.allgroups then
      { s with alldims := s.alldims ++ [(s.next_dimid, c)],
               next_dimid := s.next_dimid + 1 }
    else s
  | .delGrp g =>
    if g ≠ 0 ∧ s.allgroups.all (fun e => !(e.2 == g) || (e.1 == g))
        ∧ s.alltypes.all (fun e => !(e.2 == g))
        ∧ s.alldims.all (fun e => !(e.2 == g)) then
      { s with allgroups := s.allgroups.filter (fun e => !(e.1 == g)) }
    else s
  | .delTyp t =>
    { s with alltypes := s.alltypes.filter (fun e => !(e.1 == t)) }
  | .delDim d =>
    { s with alldims := s.alldims.filter (fun e => !(e.1 == d)) }

/-- Run a sequence of registry operations from the fresh registry. -/
def regRun (ops : List RegOp) : FileReg :=
  ops.foldl regStep fileRegInit

/-- The parent (containing group) recorded for an id in a flat table. -/
def parentOf (t : IdTable) (i : Nat) : Option Nat :=
  (t.find? (fun e => e.1 == i)).map Prod.snd

/-- Fuelled walk up the parent chain: does it reach the root (id 0)? -/
def chainB (t : IdTable) : Nat → Nat → Bool
  | 0, i => i == 0
  | f + 1, i =>
    i == 0 ||
      match parentOf t i with
      | none => false
      | some p => chainB t f p

/-- The registry invariant: the root is present, each table maps every id to
exactly one live entry below its counter, every non-root group's parent is
an earlier live group, and every type and dimension is contained in a live
group. -/
def regInv (s : FileReg) : Prop :=
  (0, 0) ∈ s.allgroups ∧
  (tblIds s.allgroups).Nodup ∧
  (tblIds s.alltypes).Nodup ∧
  (tblIds s.alldims).Nodup ∧
  (∀ e ∈ s.allgroups, e.1 < s.next_nc_grpid) ∧
  (∀ e ∈ s.alltypes, e.1 < s.next_typeid) ∧
  (∀ e ∈ s.alldims, e.1 < s.next_dimid) ∧
  (∀ e ∈ s.allgroups, e.1 ≠ 0 → e.2 < e.1 ∧ e.2 ∈ tblIds s.allgroups) ∧
  (∀ e ∈ s.allgroups, e.1 = 0 → e.2 = 0) ∧
  (∀ e ∈ s.alltypes, e.2 ∈ tblIds s.allgroups) ∧
  (∀ e ∈ s.alldims, e.2 ∈ tblIds s.allgroups)

/-- Concrete registry operation sequence used in witness instantiations. -/
def wRegOps : List RegOp :=
  [RegOp.mkGrp 0, RegOp.mkDim 0, RegOp.mkGrp 1, RegOp.delGrp 2]

/-! ## Recursive group deletion (nc4internal.h line 362, spec section 4.3) -/

/-- A variable inside a group subtree: its id and the id of the type it
references. -/
structure GVar where
  vid : Nat
  vtype : Nat
deriving DecidableEq, Repr

/-- The file-level type table seen by deletion: each type id with its
current reference count. -/
abbrev RcTable := List (Nat × Nat)

/-- A group subtree: id, variables, locally defined type ids, dimension
ids, attribute ids, and child groups. -/
inductive GGroup where
  | node (gid : Nat) (vars : List GVar) (types dims atts : List Nat)
      (children : List GGroup)

/-- One deletion event of the destructive phase. -/
inductive DelEvent where
  | var (id : Nat)
  | typ (id : Nat)
  | dim (id : Nat)
  | att (id : Nat)
  | grp (id : Nat)
deriving DecidableEq, Repr

/-- Current reference count of a type id (absent types count as zero). -/
def rcOf (tt : RcTable) (t : Nat) : Nat :=
  ((tt.find? (fun e => e.1 == t)).map Prod.snd).getD 0

/-- Release one reference on a type. -/
def rcRelease (tt : RcTable) (t : Nat) : RcTable :=
  tt.map (fun e => if e.1 = t then (e.1, e.2 - 1) else e)

/-- Remove a type from the table. -/
def rcRemove (tt : RcTable) (t : Nat) : RcTable :=
  tt.filter (fun e => !(e.1 == t))

/-- Release the type references held by a list of variables. -/
def releaseVars (tt : RcTable) (vs : List GVar) : RcTable :=
  vs.foldl (fun acc v => rcRelease acc v.vtype) tt

/-- Modelled from the spec: deleting a group's own types, in order; each
must have zero remaining references or the whole deletion fails with
`TypeInUse`. -/
def delTypes (tt : RcTable) :
    List Nat → Except NCerror (RcTable × List DelEvent)
  | [] => .ok (tt, [])
  | t :: rest =>
    if rcOf tt t ≠ 0 then .error .TypeInUse
    else
      match delTypes (rcRemove tt t) rest with
      | .error e => .error e
      | .ok (tt2, tr) => .ok (tt2, .typ t :: tr)

/-- Dry-run counterpart of `delTypes` used by pre-validation. -/
def canTypes (tt : RcTable) : List Nat → Option RcTable
  | [] => some tt
  | t :: rest =>
    if rcOf tt t ≠ 0 then none else canTypes (rcRemove tt t) rest

mutual
/-- Modelled from the spec: the destructive bottom-up phase of
`nc4_rec_grp_del` (body not under src/): delete all child groups, then
the variables (releasing their type references), then the group's own
types (`TypeInUse` if any still has references), then dimensions, then
attributes, then the group itself, emitting deletion events in order. -/
def delRecG (tt : RcTable) : GGroup → Except NCerror (RcTable × List DelEvent)
  | .node gid vs ts ds as2 cs =>
    match delRecL tt cs with
    | .error e => .error e
    | .ok (tt1, tr1) =>
      match delTypes (releaseVars tt1 vs) ts with
      | .error e => .error e
      | .ok (tt3, trt) =>
        .ok (tt3, tr1 ++ vs.map (fun v => DelEvent.var v.vid) ++ trt
          ++ ds.map DelEvent.dim ++ as2.map DelEvent.att ++ [DelEvent.grp gid])

/-- Destructive deletion of sibling subtrees, left to right. -/
def delRecL (tt : RcTable) :
    List GGroup → Except NCerror (RcTable × List DelEvent)
  | [] => .ok (tt, [])
  | c :: rest =>
    match delRecG tt c with
    | .error e => .error e
    | .ok (tt1, tr1) =>
      match delRecL tt1 rest with
      | .error e => .error e
      | .ok (tt2, tr2) => .ok (tt2, tr1 ++ tr2)
end

mutual
/-- Modelled from the spec: the top-down pre-validation pass of
`nc4_rec_grp_del`: decide, without mutating anything, whether every
descendant can be deleted, threading the simulated reference counts. -/
def canDelG (tt : RcTable) : GGroup → Option RcTable
  | .node _ vs ts _ _ cs =>
    match canDelL tt cs with
    | none => none
    | some tt1 => canTypes (releaseVars tt1 vs) ts

/-- Pre-validation of sibling subtrees, left to right. -/
def canDelL (tt : RcTable) : List GGroup → Option RcTable
  | [] => some tt
  | c :: rest =>
    match canDelG tt c with
    | none => none
    | some tt1 => canDelL tt1 rest
end

/-- Modelled from the spec: `nc4_rec_grp_del` pre-validates top-down and
only then runs the destructive bottom-up phase; on a failed validation it
returns the graph exactly as it was, with no deletion event emitted. -/
def nc4_rec_grp_del (tt : RcTable) (g : GGroup) :
    RcTable × Option (List DelEvent) :=
  if (canDelG tt g).isSome then
    match delRecG tt g with
    | .ok (tt2, tr) => (tt2, some tr)
    | .error _ => (tt, none)
  else (tt, none)

/-- Concrete subtree used in witness instantiations: one variable of type
10, the type itself locally defined, one dimension and one attribute. -/
def wGroup : GGroup :=
  .node 1 [⟨5, 10⟩] [10] [3] [4] []

/-! ## Theorems -/

/-- Bits of an ncid: packing then extracting is the identity on both halves
(for arguments that fit in 16 bits). -/
theorem pack_as_add (f g : Nat) (hg : g < 2 ^ 16) :
    (f <<< 16) ||| g = 2 ^ 16 * f + g := by
  apply Nat.eq_of_testBit_eq
  intro j
  rw [Nat.testBit_lor, Nat.testBit_shiftLeft, Nat.testBit_mul_pow_two_add f hg j]
  by_cases hj : j < 16
  · have : ¬ (j ≥ 16) := by omega
    simp [this, hj]
  · have hge : j ≥ 16 := by omega
    have hgbit : g.testBit j = false := by
      apply Nat.testBit_lt_two_pow
      calc g < 2 ^ 16 := hg
        _ ≤ 2 ^ j := Nat.pow_le_pow_right (by omega) hge
    simp [hge, hj, hgbit]

/-- Masking with a low-bits mask is reduction modulo a power of two. -/
theorem and_two_pow_sub_one (x n : Nat) : x &&& (2 ^ n - 1) = x % 2 ^ n := by
  apply Nat.eq_of_testBit_eq
  intro j
  rw [Nat.testBit_land, Nat.testBit_two_pow_sub_one, Nat.testBit_mod_two_pow,
    Bool.and_comm]

/-- Masking with the high half mask and shifting equals shifting then masking
with the low half mask. -/
theorem and_himask_shift (x : Nat) :
    (x &&& 0xffff0000) >>> 16 = (x >>> 16) &&& (2 ^ 16 - 1) := by
  have hm : (0xffff0000 : Nat) = (2 ^ 16 - 1) <<< 16 := by decide
  apply Nat.eq_of_testBit_eq
  intro j
  rw [Nat.testBit_shiftRight, Nat.testBit_land, Nat.testBit_land,
    Nat.testBit_shiftRight, hm, Nat.testBit_shiftLeft,
    Nat.testBit_two_pow_sub_one, Nat.testBit_two_pow_sub_one]
  by_cases hj : j < 16
  · simp [hj]
  · simp [hj]

/-- C9, part one: packing then extracting is the identity on both halves. -/
theorem ncid_roundtrip (f g : Nat) (hf : f < 2 ^ 16) (hg : g < 2 ^ 16) :
    ncid_fileid (make_ncid f g) = f ∧ ncid_grpid (make_ncid f g) = g := by
  have hmask : g &&& GRP_ID_MASK = g := by
    have : GRP_ID_MASK = 2 ^ 16 - 1 := by decide
    rw [this, and_two_pow_sub_one, Nat.mod_eq_of_lt hg]
  have hpack : make_ncid f g = 2 ^ 16 * f + g := by
    unfold make_ncid ID_SHIFT
    rw [hmask, pack_as_add f g hg]
  constructor
  · unfold ncid_fileid FILE_ID_MASK ID_SHIFT
    rw [hpack, and_himask_shift, and_two_pow_sub_one, Nat.shiftRight_eq_div_pow]
    have h16 : (2:Nat) ^ 16 = 65536 := by norm_num
    rw [h16] at hg hf ⊢
    omega
  · unfold ncid_grpid
    have : GRP_ID_MASK = 2 ^ 16 - 1 := by decide
    rw [hpack, this, and_two_pow_sub_one]
    have h16 : (2:Nat) ^ 16 = 65536 := by norm_num
    rw [h16] at hg ⊢
    omega

/-- C9: an externally visible ncid packs the file identifier in the upper 16
bits and the group identifier in the lower 16 bits (masks `0xffff0000` and
`0x0000ffff` with shift 16), and since the per-file group-id counter
`next_nc_grpid` is a 16-bit signed `short`, at most `2 ^ 15` distinct
nonnegative group ids can ever be allocated in one container. -/
theorem C9_ncid_packing :
    (∀ f g : Nat, f < 2 ^ 16 → g < 2 ^ 16 →
      ncid_fileid (make_ncid f g) = f ∧ ncid_grpid (make_ncid f g) = g) ∧
    (∀ S : Finset Nat, (∀ i ∈ S, validGrpId i) → S.card ≤ 2 ^ 15) := by
  constructor
  · exact fun f g hf hg => ncid_roundtrip f g hf hg
  · intro S hS
    have hsub : S ⊆ Finset.range (2 ^ 15) := by
      intro i hi
      have := hS i hi
      unfold validGrpId X_SHORT_MAX at this
      simp only [Finset.mem_range]
      omega
    calc S.card ≤ (Finset.range (2 ^ 15)).card := Finset.card_le_card hsub
      _ = 2 ^ 15 := Finset.card_range _

/-- Witness for C9 at concrete inputs. -/
theorem C9_ncid_packing_witness :
    (ncid_fileid (make_ncid 3 5) = 3 ∧ ncid_grpid (make_ncid 3 5) = 5) ∧
      ({0, 1, 32767} : Finset Nat).card ≤ 2 ^ 15 :=
  ⟨C9_ncid_packing.1 3 5 (by norm_num) (by norm_num),
   C9_ncid_packing.2 {0, 1, 32767} (by decide)⟩

/-- C10: the identity header's hashkey equals crc32 of the object's name, so
equal names force equal hashkeys; a rename that recomputes the hash
preserves this invariant, while a rename that does not breaks it; and the
modelled crc32 is the standard one (crc32 of `"abc"` is `0x352441C2`). -/
theorem C10_hashkey_is_crc32 :
    (∀ o : NC_OBJ, hashInv o → o.hashkey = crc32 (nameBytes o.name)) ∧
    (∀ o o' : NC_OBJ, hashInv o → hashInv o' → o.name = o'.name →
      o.hashkey = o'.hashkey) ∧
    (∀ (o : NC_OBJ) (n : String), hashInv (objRename o n)) ∧
    (∃ (o : NC_OBJ) (n : String), hashInv o ∧ ¬ hashInv (objRenameNoRehash o n)) ∧
    hashName "abc" = 0x352441C2 := by
  refine ⟨fun o h => h, fun o o' h h' hn => ?_, fun o n => rfl, ?_, by decide⟩
  · rw [h, h', hn]
  · refine ⟨⟨.NCVAR, "a", 0, hashName "a"⟩, "b", rfl, ?_⟩
    unfold hashInv objRenameNoRehash
    decide

/-- Witness for C10 at concrete inputs. -/
theorem C10_hashkey_is_crc32_witness :
    (NC_OBJ.mk .NCVAR "x" 0 (hashName "x")).hashkey
      = (NC_OBJ.mk .NCDIM "x" 1 (hashName "x")).hashkey :=
  C10_hashkey_is_crc32.2.1 ⟨.NCVAR, "x", 0, hashName "x"⟩
    ⟨.NCDIM, "x", 1, hashName "x"⟩ rfl rfl rfl

/-- Running one more operation steps the container once. -/
theorem idxRun_append (ops : List IdxOp) (op : IdxOp) :
    idxRun (ops ++ [op]) = idxStep (idxRun ops) op := by
  unfold idxRun
  rw [List.foldl_append]
  rfl

/-- One container step preserves distinctness of names. -/
theorem idxStep_namesNodup (idx : NCindex) (op : IdxOp) (h : namesNodup idx) :
    namesNodup (idxStep idx op) := by
  cases op with
  | ins o =>
    unfold idxStep ncindexinsert
    by_cases hc : idx.any (fun p => p.name == o.name)
    · simp [hc, h]
    · simp only [hc, Bool.false_eq_true, if_false]
      unfold namesNodup at h ⊢
      rw [List.map_append, List.nodup_append]
      refine ⟨h, by simp, ?_⟩
      intro n hn hmem
      simp only [List.map_cons, List.map_nil, List.mem_singleton] at hmem
      subst hmem
      rcases List.mem_map.mp hn with ⟨p, hp, hpn⟩
      have : idx.any (fun p => p.name == o.name) = true :=
        List.any_eq_true.mpr ⟨p, hp, by simp [hpn]⟩
      exact hc this
  | rem o =>
    unfold idxStep ncindexremove namesNodup at *
    exact ((List.filter_sublist idx).map NC_OBJ.name).nodup h

/-- Every reachable container state has pairwise distinct names. -/
theorem idxRun_namesNodup (ops : List IdxOp) : namesNodup (idxRun ops) := by
  suffices h : ∀ idx, namesNodup idx → namesNodup (List.foldl idxStep idx ops) by
    exact h [] (by simp [namesNodup])
  induction ops with
  | nil => intro idx h; exact h
  | cons op rest ih =>
    intro idx h
    exact ih (idxStep idx op) (idxStep_namesNodup idx op h)

/-- When a key function is injective on a container, the search for a
member's key finds exactly that member. -/
theorem find_of_mem {α β : Type} [DecidableEq α] [DecidableEq β] (f : β → α) :
    ∀ (idx : List β), (idx.map f).Nodup → ∀ o ∈ idx,
      idx.find? (fun p => f p == f o) = some o := by
  intro idx
  induction idx with
  | nil => intro _ o ho; cases ho
  | cons a tl ih =>
    intro h o ho
    by_cases hpa : f a = f o
    · rw [List.find?_cons_of_pos tl (by simp [hpa])]
      rcases List.mem_cons.mp ho with rfl | hotl
      · rfl
      · exfalso
        rw [List.map_cons, List.nodup_cons] at h
        exact h.1 (hpa ▸ List.mem_map.mpr ⟨o, hotl, rfl⟩)
    · rw [List.find?_cons_of_neg tl (by simp [hpa])]
      rcases List.mem_cons.mp ho with rfl | hotl
      · exact absurd rfl hpa
      · exact ih (by rw [List.map_cons, List.nodup_cons] at h; exact h.2) o hotl

/-- C1: over every sequence of insert and remove operations, lookup by name
and lookup by id return exactly the live (inserted and not yet removed)
objects and "not found" for all others, a successful insert makes the
object live, and a removal deletes exactly the removed id while keeping the
surviving objects in their relative insertion order. -/
theorem C1_indexed_container (ops : List IdxOp)
    (hids : ((idxRun ops).map NC_OBJ.id).Nodup) :
    (∀ o ∈ idxRun ops,
      ncindexlookup (idxRun ops) o.name = some o ∧
      ncindexfindid (idxRun ops) o.id = some o) ∧
    (∀ n, (∀ o ∈ idxRun ops, o.name ≠ n) → ncindexlookup (idxRun ops) n = none) ∧
    (∀ i, (∀ o ∈ idxRun ops, o.id ≠ i) → ncindexfindid (idxRun ops) i = none) ∧
    (∀ o idx2, ncindexinsert (idxRun ops) o = .ok idx2 →
      idx2 = idxRun (ops ++ [.ins o]) ∧ o ∈ idxRun (ops ++ [.ins o])) ∧
    (∀ b, ncindexiterate (idxRun (ops ++ [.rem b])) =
        (ncindexiterate (idxRun ops)).filter (fun o => !(o.id == b.id)) ∧
      (ncindexiterate (idxRun (ops ++ [.rem b]))).Sublist
        (ncindexiterate (idxRun ops)) ∧
      (∀ o ∈ idxRun ops, o.id ≠ b.id → o ∈ idxRun (ops ++ [.rem b])) ∧
      (∀ o ∈ idxRun (ops ++ [.rem b]), o.id ≠ b.id)) := by
  refine ⟨?_, ?_, ?_, ?_, ?_⟩
  · intro o ho
    constructor
    · exact find_of_mem NC_OBJ.name (idxRun ops) (idxRun_namesNodup ops) o ho
    · exact find_of_mem NC_OBJ.id (idxRun ops) hids o ho
  · intro n hn
    unfold ncindexlookup
    rw [List.find?_eq_none]
    intro o ho
    simp [hn o ho]
  · intro i hi
    unfold ncindexfindid
    rw [List.find?_eq_none]
    intro o ho
    simp [hi o ho]
  · intro o idx2 hins
    unfold ncindexinsert at hins
    by_cases hc : (idxRun ops).any (fun p => p.name == o.name)
    · simp [hc] at hins
    · simp only [hc, Bool.false_eq_true, if_false, Except.ok.injEq] at hins
      subst hins
      rw [idxRun_append]
      unfold idxStep ncindexinsert
      simp [hc]
  · intro b
    rw [idxRun_append]
    refine ⟨rfl, ?_, ?_, ?_⟩
    · exact List.filter_sublist _
    · intro o ho hne
      unfold idxStep ncindexremove
      exact List.mem_filter.mpr ⟨ho, by simp [hne]⟩
    · intro o ho
      unfold idxStep ncindexremove at ho
      have := (List.mem_filter.mp ho).2
      simp at this
      exact this

/-- Witness for C1 at a concrete operation sequence. -/
theorem C1_indexed_container_witness :
    ncindexlookup (idxRun wOps) "b" = some wObjB ∧
      ncindexfindid (idxRun wOps) 1 = some wObjB :=
  (C1_indexed_container wOps (by decide)).1 wObjB (by decide)

/-- Releasing one reference decrements the looked-up reference count. -/
theorem typeFind_release (ts : TypeList) (tid : Nat) :
    typeFind (typeRelease ts tid) tid =
      (typeFind ts tid).map (fun t => { t with rc := t.rc - 1 }) := by
  unfold typeFind typeRelease
  induction ts with
  | nil => rfl
  | cons p tl ih =>
    by_cases hp : p.id = tid
    · simp [List.find?_cons, hp]
    · simp only [List.map_cons, if_neg hp, List.find?_cons]
      have hb : (p.id == tid) = false := by simp [hp]
      rw [hb]
      exact ih

/-- Releasing `n` references decrements the looked-up reference count by
`n`. -/
theorem typeFind_releaseN (ts : TypeList) (tid : Nat) (t : NCTypeInfo)
    (h : typeFind ts tid = some t) :
    ∀ n, typeFind (typeReleaseN ts tid n) tid = some { t with rc := t.rc - n } := by
  intro n
  induction n with
  | zero =>
    unfold typeReleaseN
    simpa using h
  | succ n ih =>
    unfold typeReleaseN at ih ⊢
    rw [Function.iterate_succ_apply', typeFind_release, ih]
    simp [Nat.sub_sub]

/-- After filtering an id out, lookup of that id fails. -/
theorem typeFind_filter_out (ts : TypeList) (tid : Nat) :
    typeFind (ts.filter (fun p => !(p.id == tid))) tid = none := by
  unfold typeFind
  rw [List.find?_eq_none]
  intro p hp
  have := (List.mem_filter.mp hp).2
  simp at this
  simp [this]

/-- C2: deleting a registered type with a positive reference count fails
with `TypeInUse` and leaves the registry unchanged; deleting it with a
zero reference count succeeds and unregisters it; in particular, after
releasing all of its references the deletion succeeds. -/
theorem C2_type_delete_refcount (ts : TypeList) (tid : Nat) (t : NCTypeInfo)
    (h : typeFind ts tid = some t) :
    (t.rc > 0 → nc4_type_list_del ts tid = (ts, some .TypeInUse)) ∧
    (t.rc = 0 → (nc4_type_list_del ts tid).2 = none ∧
      typeFind (nc4_type_list_del ts tid).1 tid = none) ∧
    ((nc4_type_list_del (typeReleaseN ts tid t.rc) tid).2 = none ∧
      typeFind (nc4_type_list_del (typeReleaseN ts tid t.rc) tid).1 tid = none) := by
  refine ⟨?_, ?_, ?_⟩
  · intro hrc
    simp [nc4_type_list_del, h, hrc]
  · intro hrc
    simp [nc4_type_list_del, h, hrc, typeFind_filter_out]
  · have hN := typeFind_releaseN ts tid t h t.rc
    simp [nc4_type_list_del, hN, typeFind_filter_out]

/-- Witness for C2 at a concrete registry. -/
theorem C2_type_delete_refcount_witness :
    (nc4_type_list_del [⟨7, "T", 2⟩] 7 = ([⟨7, "T", 2⟩], some .TypeInUse)) ∧
      (nc4_type_list_del (typeReleaseN [⟨7, "T", 2⟩] 7 2) 7).2 = none :=
  ⟨(C2_type_delete_refcount [⟨7, "T", 2⟩] 7 ⟨7, "T", 2⟩ rfl).1 (by decide),
   (C2_type_delete_refcount [⟨7, "T", 2⟩] 7 ⟨7, "T", 2⟩ rfl).2.2.1⟩

/-- C7: name normalization fails with `NameInvalid` exactly on the empty
name, a name longer than `NC_MAX_NAME`, or a name containing an embedded
NUL; `NameInvalid` is its only error; on every other name it succeeds with
the normalized name. -/
theorem C7_normalize (uNorm : List Char → List Char) (raw : List Char) :
    (nc4_check_name uNorm raw = .error .NameInvalid ↔
      raw = [] ∨ raw.length > NC_MAX_NAME ∨ nulChar ∈ raw) ∧
    (∀ e, nc4_check_name uNorm raw = .error e → e = .NameInvalid) ∧
    (raw ≠ [] → ¬ raw.length > NC_MAX_NAME → nulChar ∉ raw →
      nc4_check_name uNorm raw = .ok (uNorm raw)) := by
  unfold nc4_check_name
  split_ifs with h1 h2 h3
  · refine ⟨⟨fun _ => Or.inl (List.length_eq_zero.mp h1), fun _ => rfl⟩,
      fun e he => by injection he with he1; exact he1.symm, fun hne _ _ => ?_⟩
    exact absurd (List.length_eq_zero.mp h1) hne
  · exact ⟨⟨fun _ => Or.inr (Or.inl h2), fun _ => rfl⟩,
      fun e he => by injection he with he1; exact he1.symm,
      fun _ hle _ => absurd h2 hle⟩
  · refine ⟨⟨fun _ => Or.inr (Or.inr (List.elem_iff.mp h3)), fun _ => rfl⟩,
      fun e he => by injection he with he1; exact he1.symm,
      fun _ _ hnul => absurd (List.elem_iff.mp h3) hnul⟩
  · refine ⟨⟨fun hcon => absurd hcon (by simp), fun hdisj => ?_⟩,
      fun e he => absurd he (by simp), fun _ _ _ => rfl⟩
    exfalso
    rcases hdisj with hd | hd | hd
    · exact h1 (by rw [hd]; rfl)
    · exact h2 hd
    · exact h3 (List.elem_iff.mpr hd)

/-- Witness for C7 at a concrete name. -/
theorem C7_normalize_witness :
    nc4_check_name nc_utf8proc "abc".data = .ok (nc_utf8proc "abc".data) :=
  (C7_normalize nc_utf8proc "abc".data).2.2 (by decide) (by decide) (by decide)

/-- Closed form of the assembly fold: each object is appended with id equal
to its enumeration position. -/
theorem assembleKind_go_eq (sort : NC_SORT) :
    ∀ (names : List String) (acc : List NC_OBJ),
      names.foldl (fun a n => a ++ [⟨sort, n, a.length, hashName n⟩]) acc
        = acc ++ (List.enumFrom acc.length names).map
            (fun p => ⟨sort, p.2, p.1, hashName p.2⟩) := by
  intro names
  induction names with
  | nil => intro acc; simp
  | cons n rest ih =>
    intro acc
    rw [List.foldl_cons, ih, List.enumFrom_cons]
    simp

/-- C6: assembling one group's objects of one kind from the backend's
enumeration gives every object an id equal to its position in that
enumeration (and hence in the group's container). -/
theorem C6_assembly (sort : NC_SORT) (names : List String) :
    (assembleKind sort names).length = names.length ∧
    ∀ (i : Nat) (n : String), names[i]? = some n →
      (assembleKind sort names)[i]? = some (NC_OBJ.mk sort n i (hashName n)) := by
  have heq : assembleKind sort names
      = (List.enumFrom 0 names).map (fun p => ⟨sort, p.2, p.1, hashName p.2⟩) := by
    unfold assembleKind
    simpa using assembleKind_go_eq sort names []
  constructor
  · rw [heq]
    simp [List.enumFrom_length]
  · intro i n hn
    rw [heq, List.getElem?_map, List.getElem?_enumFrom, hn]
    simp

/-- Witness for C6 at a concrete enumeration. -/
theorem C6_assembly_witness :
    (assembleKind .NCVAR ["u", "v"])[1]? =
      some (NC_OBJ.mk .NCVAR "v" 1 (hashName "v")) :=
  (C6_assembly .NCVAR ["u", "v"]).2 1 "v" rfl

/-- A successful name check returns the (here: identity-normalized) input,
which is in particular non-empty. -/
theorem check_ok_eq (raw norm : List Char)
    (h : nc4_check_name nc_utf8proc raw = .ok norm) :
    norm = raw ∧ raw ≠ [] := by
  unfold nc4_check_name at h
  split_ifs at h with h1 h2 h3
  injection h with h'
  have hnr : norm = raw := by rw [← h']; rfl
  exact ⟨hnr, fun hc => h1 (by rw [hc]; rfl)⟩

/-- Entity creation preserves the identity-header invariant. -/
theorem entityCreate_inv (s : ObjSys) (k : NC_SORT) (raw : List Char)
    (h : entityInv s) : entityInv (entityCreate s k raw) := by
  unfold entityCreate
  by_cases hk : k = .NCNAT
  · simp [hk, h]
  · simp only [hk, if_false]
    cases hchk : nc4_check_name nc_utf8proc raw with
    | error e => exact h
    | ok norm =>
      rcases check_ok_eq raw norm hchk with ⟨hnr, hraw⟩
      constructor
      · intro o ho
        rcases List.mem_append.mp ho with hold | hnew
        · rcases h.1 o hold with ⟨hs, hn, hh, hid⟩
          exact ⟨hs, hn, hh, Nat.lt_succ_of_lt hid⟩
        · rw [List.mem_singleton] at hnew
          subst hnew
          refine ⟨?_, ?_, rfl, Nat.lt_succ_self _⟩
          · show k ∈ entityKinds
            cases k <;> first | exact absurd rfl hk | decide
          · intro hc
            have : norm = [] := congrArg String.data hc
            rw [hnr] at this
            exact hraw this
      · rw [List.map_append, List.pairwise_append]
        refine ⟨h.2, by simp, ?_⟩
        intro a ha b hb
        simp only [List.map_cons, List.map_nil, List.mem_singleton] at hb
        subst hb
        rcases List.mem_map.mp ha with ⟨o, ho, rfl⟩
        exact (h.1 o ho).2.2.2

/-- Every reachable scope satisfies the identity-header invariant. -/
theorem entityRun_inv (cmds : List (NC_SORT × List Char)) :
    entityInv (entityRun cmds) := by
  suffices h : ∀ s, entityInv s →
      entityInv (cmds.foldl (fun s c => entityCreate s c.1 c.2) s) by
    refine h objSysInit ⟨fun o ho => absurd ho (by simp [objSysInit]), ?_⟩
    simp [objSysInit]
  induction cmds with
  | nil => intro s hs; exact hs
  | cons c rest ih =>
    intro s hs
    exact ih (entityCreate s c.1 c.2) (entityCreate_inv s c.1 c.2 hs)

/-- C5: every entity created in a scope carries an identity header whose
kind tag is one of exactly the six entity kinds, whose name is non-empty
normalized text, whose hash is precomputed from the name, and whose id is
assigned monotonically and is unique in the scope. -/
theorem C5_identity_header (cmds : List (NC_SORT × List Char)) :
    (entityKinds.length = 6 ∧ entityKinds.Nodup ∧ NC_SORT.NCNAT ∉ entityKinds) ∧
    (∀ o ∈ (entityRun cmds).objs,
      o.sort ∈ entityKinds ∧ o.name ≠ "" ∧ o.hashkey = hashName o.name) ∧
    ((entityRun cmds).objs.map NC_OBJ.id).Pairwise (· < ·) ∧
    ((entityRun cmds).objs.map NC_OBJ.id).Nodup := by
  have h := entityRun_inv cmds
  refine ⟨by decide, fun o ho => ?_, h.2, h.2.imp fun hab => Nat.ne_of_lt hab⟩
  rcases h.1 o ho with ⟨hs, hn, hh, _⟩
  exact ⟨hs, hn, hh⟩

/-- Witness for C5 at a concrete creation sequence. -/
theorem C5_identity_header_witness :
    (NC_OBJ.mk .NCDIM "x" 0 (hashName "x")).sort ∈ entityKinds ∧
      (NC_OBJ.mk .NCDIM "x" 0 (hashName "x")).name ≠ "" ∧
      (NC_OBJ.mk .NCDIM "x" 0 (hashName "x")).hashkey =
        hashName (NC_OBJ.mk .NCDIM "x" 0 (hashName "x")).name :=
  (C5_identity_header [(.NCDIM, "x".data)]).2.1
    ⟨.NCDIM, "x", 0, hashName "x"⟩ (by decide)

/-- String comparison returns `eq` exactly on equal strings. -/
theorem strcmp_eq_iff : ∀ (a b : List Char), strcmp a b = .eq ↔ a = b := by
  intro a
  induction a with
  | nil =>
    intro b
    cases b <;> simp [strcmp]
  | cons x xs ih =>
    intro b
    cases b with
    | nil => simp [strcmp]
    | cons y ys =>
      by_cases h1 : x < y
      · simp only [strcmp, if_pos h1]
        constructor
        · intro hc
          exact absurd hc (by decide)
        · intro hc
          injection hc with hxy hxys
          exact absurd h1 (by rw [hxy]; exact lt_irrefl y)
      · by_cases h2 : y < x
        · simp only [strcmp, if_neg h1, if_pos h2]
          constructor
          · intro hc
            exact absurd hc (by decide)
          · intro hc
            injection hc with hxy hxys
            exact absurd h2 (by rw [hxy]; exact lt_irrefl y)
        · have hxy : x = y := le_antisymm (not_lt.mp h2) (not_lt.mp h1)
          subst hxy
          simp only [strcmp, if_neg h1, if_neg h2]
          rw [ih ys]
          simp

/-- A strictly smaller string is not equal. -/
theorem strcmp_lt_ne {a b : List Char} (h : strcmp a b = .lt) : a ≠ b := by
  intro hc
  subst hc
  rw [(strcmp_eq_iff a a).mpr rfl] at h
  exact absurd h (by decide)

/-- String comparison is antisymmetric between `gt` and `lt`. -/
theorem strcmp_gt_iff : ∀ (a b : List Char), strcmp a b = .gt ↔ strcmp b a = .lt := by
  intro a
  induction a with
  | nil =>
    intro b
    cases b <;> simp [strcmp]
  | cons x xs ih =>
    intro b
    cases b with
    | nil => simp [strcmp]
    | cons y ys =>
      by_cases h1 : x < y
      · have h2 : ¬ y < x := not_lt.mpr (le_of_lt h1)
        simp [strcmp, h1, h2]
      · by_cases h2 : y < x
        · simp [strcmp, h1, h2]
        · have hxy : x = y := le_antisymm (not_lt.mp h2) (not_lt.mp h1)
          subst hxy
          simp [strcmp, h1, ih ys]

/-- String comparison is transitive in `lt`. -/
theorem strcmp_lt_trans : ∀ (a b c : List Char),
    strcmp a b = .lt → strcmp b c = .lt → strcmp a c = .lt := by
  intro a
  induction a with
  | nil =>
    intro b c h1 h2
    cases b with
    | nil => exact absurd h1 (by simp [strcmp])
    | cons y ys =>
      cases c with
      | nil => exact absurd h2 (by simp [strcmp])
      | cons z zs => simp [strcmp]
  | cons x xs ih =>
    intro b c h1 h2
    cases b with
    | nil => exact absurd h1 (by simp [strcmp])
    | cons y ys =>
      cases c with
      | nil => exact absurd h2 (by simp [strcmp])
      | cons z zs =>
        by_cases hxy : x < y
        · by_cases hyz : y < z
          · simp [strcmp, lt_trans hxy hyz]
          · by_cases hzy : z < y
            · exact absurd h2 (by simp [strcmp, hyz, hzy])
            · have hyz_eq : y = z := le_antisymm (not_lt.mp hzy) (not_lt.mp hyz)
              subst hyz_eq
              simp [strcmp, hxy]
        · by_cases hyx : y < x
          · exact absurd h1 (by simp [strcmp, hxy, hyx])
          · have hxy_eq : x = y := le_antisymm (not_lt.mp hyx) (not_lt.mp hxy)
            subst hxy_eq
            rw [show strcmp (x :: xs) (x :: ys) = strcmp xs ys from by
              simp [strcmp]] at h1
            by_cases hxz : x < z
            · simp [strcmp, hxz]
            · by_cases hzx : z < x
              · exact absurd h2 (by simp [strcmp, hxz, hzx])
              · have hxz_eq : x = z := le_antisymm (not_lt.mp hzx) (not_lt.mp hxz)
                subst hxz_eq
                rw [show strcmp (x :: ys) (x :: zs) = strcmp ys zs from by
                  simp [strcmp]] at h2
                simp [strcmp, hxz, ih ys zs h1 h2]

/-- Binary search over a sorted reserved-attribute table agrees with linear
search. -/
theorem NC_binsearch_correct (name : List Char) (tbl : List NC_reservedatt)
    (hsort : List.Pairwise reservedLt tbl) :
    NC_binsearch name tbl = tbl.find? (fun e => e.name.data == name) := by
  by_cases htbl : tbl.length = 0
  · have hnil : tbl = [] := List.length_eq_zero.mp htbl
    subst hnil
    simp [NC_binsearch]
  · have hm : tbl.length / 2 < tbl.length := by omega
    unfold NC_binsearch
    rw [dif_neg htbl]
    by_cases heq : strcmp (tbl.get ⟨tbl.length / 2, hm⟩).name.data name = .eq
    · rw [if_pos heq]
      have hname : (tbl.get ⟨tbl.length / 2, hm⟩).name.data = name :=
        (strcmp_eq_iff _ _).mp heq
      conv_rhs => rw [← List.take_append_drop (tbl.length / 2) tbl]
      rw [List.find?_append]
      have htake : (tbl.take (tbl.length / 2)).find?
          (fun e => e.name.data == name) = none := by
        rw [List.find?_eq_none]
        intro x hx
        rcases List.mem_iff_getElem.mp hx with ⟨i, hi, hxi⟩
        rw [List.length_take] at hi
        have hi2 : i < tbl.length / 2 := lt_of_lt_of_le hi (min_le_left _ _)
        rw [List.getElem_take] at hxi
        have hR := List.pairwise_iff_getElem.mp hsort i (tbl.length / 2)
          (by omega) hm hi2
        have hlt : strcmp x.name.data name = .lt := by
          rw [← hxi]
          rw [← hname]
          exact hR
        simp [strcmp_lt_ne hlt]
      rw [htake, Option.none_or]
      rw [List.drop_eq_getElem_cons hm]
      rw [List.find?_cons]
      have hname2 : (tbl[tbl.length / 2]).name.data = name := hname
      have hb : ((tbl[tbl.length / 2]).name.data == name) = true := by
        simp [hname2]
      simp only [hb]
      rfl
    · rw [if_neg heq]
      by_cases hltc : strcmp (tbl.get ⟨tbl.length / 2, hm⟩).name.data name = .lt
      · rw [if_pos hltc]
        rw [NC_binsearch_correct name (tbl.drop (tbl.length / 2 + 1))
          (List.Pairwise.sublist (List.drop_sublist _ _) hsort)]
        conv_rhs => rw [← List.take_append_drop (tbl.length / 2 + 1) tbl]
        rw [List.find?_append]
        have htake : (tbl.take (tbl.length / 2 + 1)).find?
            (fun e => e.name.data == name) = none := by
          rw [List.find?_eq_none]
          intro x hx
          rcases List.mem_iff_getElem.mp hx with ⟨i, hi, hxi⟩
          rw [List.length_take] at hi
          have hi2 : i < tbl.length / 2 + 1 := lt_of_lt_of_le hi (min_le_left _ _)
          rw [List.getElem_take] at hxi
          have hxlt : strcmp x.name.data name = .lt := by
            rw [← hxi]
            by_cases hieq : i = tbl.length / 2
            · subst hieq
              exact hltc
            · have hi3 : i < tbl.length / 2 := by omega
              have hR := List.pairwise_iff_getElem.mp hsort i (tbl.length / 2)
                (by omega) hm hi3
              exact strcmp_lt_trans _ _ _ hR hltc
          simp [strcmp_lt_ne hxlt]
        rw [htake, Option.none_or]
      · rw [if_neg hltc]
        have hgt : strcmp (tbl.get ⟨tbl.length / 2, hm⟩).name.data name = .gt := by
          cases hc : strcmp (tbl.get ⟨tbl.length / 2, hm⟩).name.data name with
          | eq => exact absurd hc heq
          | lt => exact absurd hc hltc
          | gt => rfl
        have hswap := (strcmp_gt_iff _ _).mp hgt
        rw [NC_binsearch_correct name (tbl.take (tbl.length / 2))
          (List.Pairwise.sublist (List.take_sublist _ _) hsort)]
        conv_rhs => rw [← List.take_append_drop (tbl.length / 2) tbl]
        rw [List.find?_append]
        have hdrop : (tbl.drop (tbl.length / 2)).find?
            (fun e => e.name.data == name) = none := by
          rw [List.find?_eq_none]
          intro x hx
          rcases List.mem_iff_getElem.mp hx with ⟨i, hi, hxi⟩
          rw [List.length_drop] at hi
          rw [List.getElem_drop] at hxi
          have hnlt : strcmp name x.name.data = .lt := by
            rw [← hxi]
            by_cases hieq : i = 0
            · subst hieq
              simpa [List.get_eq_getElem] using hswap
            · have hR := List.pairwise_iff_getElem.mp hsort (tbl.length / 2)
                (tbl.length / 2 + i) hm (by omega) (by omega)
              exact strcmp_lt_trans _ _ _ hswap hR
          have hne : ¬ (x.name.data = name) := fun hc => strcmp_lt_ne hnlt hc.symm
          simp [hne]
        rw [hdrop, Option.or_none]
termination_by tbl.length
decreasing_by
  · simp only [List.length_drop]
    omega
  · simp only [List.length_take]
    omega

/-- The `String` equality test agrees with the code-point list equality
test. -/
theorem beq_name_data (nm : String) (e : NC_reservedatt) :
    (e.name == nm) = (e.name.data == nm.data) := by
  by_cases h : e.name = nm
  · simp [h]
  · have hd : e.name.data ≠ nm.data := fun hc => h (String.ext hc)
    simp [h, hd]

/-- C8: the reserved-attribute lookup is a binary search over the fixed,
sorted static table: it agrees with linear search, returns an entry
exactly for the names present in the table, and the returned flags alone
determine whether the attribute is hidden from enumeration, read-only, or
name-only — two entries with equal flags gate identically, with no
per-name code path. -/
theorem C8_reserved_attributes :
    List.Pairwise reservedLt NC_reserved ∧
    (∀ name : String, NC_findreserved name =
      NC_reserved.find? (fun e => e.name == name)) ∧
    (∀ (name : String) (e : NC_reservedatt),
      NC_findreserved name = some e ↔ e ∈ NC_reserved ∧ e.name = name) ∧
    (∀ (n1 n2 : String) (e1 e2 : NC_reservedatt),
      NC_findreserved n1 = some e1 → NC_findreserved n2 = some e2 →
      e1.flags = e2.flags →
      attModifiable n1 = attModifiable n2 ∧
      attEnumerated n1 = attEnumerated n2 ∧
      attNameOnly n1 = attNameOnly n2) := by
  have hsort : List.Pairwise reservedLt NC_reserved := by decide
  have hfind : ∀ name : String, NC_findreserved name =
      NC_reserved.find? (fun e => e.name == name) := by
    intro name
    unfold NC_findreserved
    rw [NC_binsearch_correct name.data NC_reserved hsort]
    simp only [beq_name_data name]
  refine ⟨hsort, hfind, ?_, ?_⟩
  · intro name e
    constructor
    · intro h
      rw [hfind name] at h
      have hmem := List.mem_of_find?_eq_some h
      have hname := List.find?_some h
      simp only [beq_iff_eq] at hname
      exact ⟨hmem, hname⟩
    · rintro ⟨hmem, hname⟩
      subst hname
      rw [hfind e.name]
      simp only [NC_reserved, List.mem_cons, List.not_mem_nil, or_false] at hmem
      rcases hmem with rfl | rfl | rfl | rfl | rfl <;> rfl
  · intro n1 n2 e1 e2 h1 h2 hf
    refine ⟨?_, ?_, ?_⟩
    · unfold attModifiable
      simp only [h1, h2, hf]
    · unfold attEnumerated
      simp only [h1, h2, hf]
    · unfold attNameOnly
      simp only [h1, h2, hf]

/-- Witness for C8 at concrete attribute names. -/
theorem C8_reserved_attributes_witness :
    NC_findreserved "CLASS" = some ⟨"CLASS", READONLYFLAG ||| DIMSCALEFLAG⟩ ∧
      NC_findreserved "units" = none := by
  constructor
  · rw [C8_reserved_attributes.2.1 "CLASS"]
    rfl
  · rw [C8_reserved_attributes.2.1 "units"]
    rfl

/-- The walk from the root trivially reaches the root. -/
theorem chainB_zero (t : IdTable) (f : Nat) : chainB t f 0 = true := by
  cases f <;> simp [chainB]

/-- More fuel never hurts the parent-chain walk. -/
theorem chainB_mono (t : IdTable) :
    ∀ (f1 f2 i : Nat), f1 ≤ f2 → chainB t f1 i = true → chainB t f2 i = true := by
  intro f1
  induction f1 with
  | zero =>
    intro f2 i _ h
    simp only [chainB] at h
    have : i = 0 := by simpa using h
    subst this
    exact chainB_zero t f2
  | succ f ih =>
    intro f2 i hle h
    cases f2 with
    | zero => exact absurd hle (by omega)
    | succ f2' =>
      simp only [chainB] at h ⊢
      cases hi : (i == 0) with
      | true => simp [hi]
      | false =>
        rw [hi] at h
        simp only [Bool.false_or] at h ⊢
        cases hp : parentOf t i with
        | none =>
          rw [hp] at h
          exact Bool.noConfusion h
        | some p =>
          rw [hp] at h
          have hfp : chainB t f p = true := h
          show chainB t f2' p = true
          exact ih f2' p (by omega) hfp

/-- Under the registry invariant facts, every live group's parent chain
reaches the root. -/
theorem chain_of_inv (t : IdTable) (hnd : (tblIds t).Nodup)
    (hcl : ∀ e ∈ t, e.1 ≠ 0 → e.2 < e.1 ∧ e.2 ∈ tblIds t) :
    ∀ n, ∀ e ∈ t, e.1 = n → chainB t n n = true := by
  intro n
  induction n using Nat.strong_induction_on with
  | _ n ih =>
    intro e he hen
    by_cases hn : n = 0
    · subst hn
      exact chainB_zero t 0
    · obtain ⟨m, rfl⟩ : ∃ m, n = m + 1 := ⟨n - 1, by omega⟩
      have hcl' := hcl e he (by rw [hen]; exact Nat.succ_ne_zero m)
      rcases hcl' with ⟨hplt, hpmem⟩
      rcases List.mem_map.mp hpmem with ⟨ep, hep, hep1⟩
      have hchp : chainB t e.2 e.2 = true := ih e.2 (by omega) ep hep hep1
      have hch : chainB t m e.2 = true := chainB_mono t e.2 m e.2 (by omega) hchp
      simp only [chainB]
      have hfind : parentOf t (m + 1) = some e.2 := by
        unfold parentOf
        have hfd := find_of_mem Prod.fst t hnd e he
        rw [hen] at hfd
        rw [hfd]
        rfl
      rw [hfind]
      simp [hch]

/-- Ids of a filtered table are ids of the table. -/
theorem tblIds_filter_subset (t : IdTable) (p : Nat × Nat → Bool) (i : Nat)
    (hi : i ∈ tblIds (t.filter p)) : i ∈ tblIds t := by
  rcases List.mem_map.mp hi with ⟨e, he, he1⟩
  exact List.mem_map.mpr ⟨e, (List.mem_filter.mp he).1, he1⟩

/-- One registry step preserves the registry invariant. -/
theorem regStep_inv (s : FileReg) (op : RegOp) (h : regInv s) :
    regInv (regStep s op) := by
  obtain ⟨hroot, hndg, hndt, hndd, hbg, hbt, hbd, hclg, hz, hct, hcd⟩ := h
  have hcnt0 : 0 < s.next_nc_grpid := hbg (0, 0) hroot
  cases op with
  | mkGrp parent =>
    unfold regStep
    by_cases hp : parent ∈ tblIds s.allgroups
    · simp only [if_pos hp]
      have hfresh : s.next_nc_grpid ∉ tblIds s.allgroups := by
        intro hin
        rcases List.mem_map.mp hin with ⟨e, he, he1⟩
        have := hbg e he
        omega
      have hids : tblIds (s.allgroups ++ [(s.next_nc_grpid, parent)]) =
          tblIds s.allgroups ++ [s.next_nc_grpid] := by
        unfold tblIds
        rw [List.map_append]
        rfl
      have hsub : ∀ i, i ∈ tblIds s.allgroups →
          i ∈ tblIds (s.allgroups ++ [(s.next_nc_grpid, parent)]) := by
        intro i hi
        rw [hids]
        exact List.mem_append_left _ hi
      refine ⟨List.mem_append_left _ hroot, ?_, hndt, hndd, ?_, hbt, hbd,
        ?_, ?_, ?_, ?_⟩
      · rw [hids, List.nodup_append]
        refine ⟨hndg, by simp, ?_⟩
        intro a ha hb
        rw [List.mem_singleton] at hb
        subst hb
        exact hfresh ha
      · intro e he
        rcases List.mem_append.mp he with hold | hnew
        · have := hbg e hold
          simp only []
          omega
        · rw [List.mem_singleton] at hnew
          subst hnew
          simp only []
          omega
      · intro e he h10
        rcases List.mem_append.mp he with hold | hnew
        · rcases hclg e hold h10 with ⟨hlt, hmem⟩
          exact ⟨hlt, hsub _ hmem⟩
        · rw [List.mem_singleton] at hnew
          subst hnew
          constructor
          · rcases List.mem_map.mp hp with ⟨e2, he2, he21⟩
            have := hbg e2 he2
            simp only []
            omega
          · exact hsub _ hp
      · intro e he h10
        rcases List.mem_append.mp he with hold | hnew
        · exact hz e hold h10
        · rw [List.mem_singleton] at hnew
          subst hnew
          simp only [] at h10
          omega
      · intro e he
        exact hsub _ (hct e he)
      · intro e he
        exact hsub _ (hcd e he)
    · simp only [if_neg hp]
      exact ⟨hroot, hndg, hndt, hndd, hbg, hbt, hbd, hclg, hz, hct, hcd⟩
  | mkTyp c =>
    unfold regStep
    by_cases hp : c ∈ tblIds s.allgroups
    · simp only [if_pos hp]
      have hfresh : s.next_typeid ∉ tblIds s.alltypes := by
        intro hin
        rcases List.mem_map.mp hin with ⟨e, he, he1⟩
        have := hbt e he
        omega
      have hids : tblIds (s.alltypes ++ [(s.next_typeid, c)]) =
          tblIds s.alltypes ++ [s.next_typeid] := by
        unfold tblIds
        rw [List.map_append]
        rfl
      refine ⟨hroot, hndg, ?_, hndd, hbg, ?_, hbd, hclg, hz, ?_, hcd⟩
      · rw [hids, List.nodup_append]
        refine ⟨hndt, by simp, ?_⟩
        intro a ha hb
        rw [List.mem_singleton] at hb
        subst hb
        exact hfresh ha
      · intro e he
        rcases List.mem_append.mp he with hold | hnew
        · have := hbt e hold
          simp only []
          omega
        · rw [List.mem_singleton] at hnew
          subst hnew
          simp only []
          omega
      · intro e he
        rcases List.mem_append.mp he with hold | hnew
        · exact hct e hold
        · rw [List.mem_singleton] at hnew
          subst hnew
          exact hp
    · simp only [if_neg hp]
      exact ⟨hroot, hndg, hndt, hndd, hbg, hbt, hbd, hclg, hz, hct, hcd⟩
  | mkDim c =>
    unfold regStep
    by_cases hp : c ∈ tblIds s.allgroups
    · simp only [if_pos hp]
      have hfresh : s.next_dimid ∉ tblIds s.alldims := by
        intro hin
        rcases List.mem_map.mp hin with ⟨e, he, he1⟩
        have := hbd e he
        omega
      have hids : tblIds (s.alldims ++ [(s.next_dimid, c)]) =
          tblIds s.alldims ++ [s.next_dimid] := by
        unfold tblIds
        rw [List.map_append]
        rfl
      refine ⟨hroot, hndg, hndt, ?_, hbg, hbt, ?_, hclg, hz, hct, ?_⟩
      · rw [hids, List.nodup_append]
        refine ⟨hndd, by simp, ?_⟩
        intro a ha hb
        rw [List.mem_singleton] at hb
        subst hb
        exact hfresh ha
      · intro e he
        rcases List.mem_append.mp he with hold | hnew
        · have := hbd e hold
          simp only []
          omega
        · rw [List.mem_singleton] at hnew
          subst hnew
          simp only []
          omega
      · intro e he
        rcases List.mem_append.mp he with hold | hnew
        · exact hcd e hold
        · rw [List.mem_singleton] at hnew
          subst hnew
          exact hp
    · simp only [if_neg hp]
      exact ⟨hroot, hndg, hndt, hndd, hbg, hbt, hbd, hclg, hz, hct, hcd⟩
  | delGrp g =>
    unfold regStep
    by_cases hc : g ≠ 0 ∧ s.allgroups.all (fun e => !(e.2 == g) || (e.1 == g))
        ∧ s.alltypes.all (fun e => !(e.2 == g))
        ∧ s.alldims.all (fun e => !(e.2 == g))
    · simp only [if_pos hc]
      obtain ⟨hg0, hleaf, htyp, hdim⟩ := hc
      have hleaf' : ∀ e ∈ s.allgroups, e.2 = g → e.1 = g := by
        intro e he h2
        have := List.all_eq_true.mp hleaf e he
        simp [h2] at this
        exact this
      have htyp' : ∀ e ∈ s.alltypes, e.2 ≠ g := by
        intro e he
        have := List.all_eq_true.mp htyp e he
        simpa using this
      have hdim' : ∀ e ∈ s.alldims, e.2 ≠ g := by
        intro e he
        have := List.all_eq_true.mp hdim e he
        simpa using this
      have hsurv : ∀ i, i ∈ tblIds s.allgroups → i ≠ g →
          i ∈ tblIds (s.allgroups.filter (fun e => !(e.1 == g))) := by
        intro i hi hig
        rcases List.mem_map.mp hi with ⟨e, he, he1⟩
        exact List.mem_map.mpr
          ⟨e, List.mem_filter.mpr ⟨he, by simp [he1, hig]⟩, he1⟩
      refine ⟨?_, ?_, hndt, hndd, ?_, hbt, hbd, ?_, ?_, ?_, ?_⟩
      · refine List.mem_filter.mpr ⟨hroot, ?_⟩
        have h0g : (0 : Nat) ≠ g := fun hcon => hg0 hcon.symm
        simp [h0g]
      · exact ((List.filter_sublist _).map Prod.fst).nodup hndg
      · intro e he
        exact hbg e (List.mem_filter.mp he).1
      · intro e he h10
        have heold := (List.mem_filter.mp he).1
        have hef : e.1 ≠ g := by
          have := (List.mem_filter.mp he).2
          simpa using this
        rcases hclg e heold h10 with ⟨hlt, hmem⟩
        refine ⟨hlt, ?_⟩
        apply hsurv _ hmem
        intro h2g
        exact hef (hleaf' e heold h2g)
      · intro e he h10
        exact hz e (List.mem_filter.mp he).1 h10
      · intro e he
        exact hsurv _ (hct e he) (htyp' e he)
      · intro e he
        exact hsurv _ (hcd e he) (hdim' e he)
    · simp only [if_neg hc]
      exact ⟨hroot, hndg, hndt, hndd, hbg, hbt, hbd, hclg, hz, hct, hcd⟩
  | delTyp t =>
    unfold regStep
    refine ⟨hroot, hndg, ?_, hndd, hbg, ?_, hbd, hclg, hz, ?_, hcd⟩
    · exact ((List.filter_sublist _).map Prod.fst).nodup hndt
    · intro e he
      exact hbt e (List.mem_filter.mp he).1
    · intro e he
      exact hct e (List.mem_filter.mp he).1
  | delDim d =>
    unfold regStep
    refine ⟨hroot, hndg, hndt, ?_, hbg, hbt, ?_, hclg, hz, hct, ?_⟩
    · exact ((List.filter_sublist _).map Prod.fst).nodup hndd
    · intro e he
      exact hbd e (List.mem_filter.mp he).1
    · intro e he
      exact hcd e (List.mem_filter.mp he).1

/-- Every reachable registry satisfies the invariant. -/
theorem regRun_inv (ops : List RegOp) : regInv (regRun ops) := by
  suffices h : ∀ s, regInv s → regInv (ops.foldl regStep s) by
    refine h fileRegInit ?_
    unfold regInv fileRegInit
    decide
  induction ops with
  | nil => intro s hs; exact hs
  | cons op rest ih =>
    intro s hs
    exact ih (regStep s op) (regStep_inv s op hs)

/-- The three id counters never decrease across a registry step. -/
theorem regStep_counters (s : FileReg) (op : RegOp) :
    s.next_nc_grpid ≤ (regStep s op).next_nc_grpid ∧
    s.next_typeid ≤ (regStep s op).next_typeid ∧
    s.next_dimid ≤ (regStep s op).next_dimid := by
  cases op with
  | mkGrp p =>
    unfold regStep
    by_cases hp : p ∈ tblIds s.allgroups
    · simp only [if_pos hp]
      exact ⟨Nat.le_succ _, le_refl _, le_refl _⟩
    · simp only [if_neg hp]
      exact ⟨le_refl _, le_refl _, le_refl _⟩
  | mkTyp c =>
    unfold regStep
    by_cases hp : c ∈ tblIds s.allgroups
    · simp only [if_pos hp]
      exact ⟨le_refl _, Nat.le_succ _, le_refl _⟩
    · simp only [if_neg hp]
      exact ⟨le_refl _, le_refl _, le_refl _⟩
  | mkDim c =>
    unfold regStep
    by_cases hp : c ∈ tblIds s.allgroups
    · simp only [if_pos hp]
      exact ⟨le_refl _, le_refl _, Nat.le_succ _⟩
    · simp only [if_neg hp]
      exact ⟨le_refl _, le_refl _, le_refl _⟩
  | delGrp g =>
    unfold regStep
    by_cases hc : g ≠ 0 ∧ s.allgroups.all (fun e => !(e.2 == g) || (e.1 == g))
        ∧ s.alltypes.all (fun e => !(e.2 == g))
        ∧ s.alldims.all (fun e => !(e.2 == g))
    · simp only [if_pos hc]
      exact ⟨le_refl _, le_refl _, le_refl _⟩
    · simp only [if_neg hc]
      exact ⟨le_refl _, le_refl _, le_refl _⟩
  | delTyp t =>
    unfold regStep
    exact ⟨le_refl _, le_refl _, le_refl _⟩
  | delDim d =>
    unfold regStep
    exact ⟨le_refl _, le_refl _, le_refl _⟩

/-- A dead id (below its counter, absent from its table) stays dead across
any registry step. -/
theorem regStep_no_reuse (s : FileReg) (op : RegOp) (i : Nat) :
    (i ∉ tblIds s.allgroups → i < s.next_nc_grpid →
      i ∉ tblIds (regStep s op).allgroups) ∧
    (i ∉ tblIds s.alltypes → i < s.next_typeid →
      i ∉ tblIds (regStep s op).alltypes) ∧
    (i ∉ tblIds s.alldims → i < s.next_dimid →
      i ∉ tblIds (regStep s op).alldims) := by
  cases op with
  | mkGrp p =>
    unfold regStep
    by_cases hp : p ∈ tblIds s.allgroups
    · simp only [if_pos hp]
      refine ⟨?_, fun h _ => h, fun h _ => h⟩
      intro hni hlt hin
      unfold tblIds at hin
      rw [List.map_append] at hin
      rcases List.mem_append.mp hin with hl | hr
      · exact hni hl
      · simp at hr
        omega
    · simp only [if_neg hp]
      exact ⟨fun h _ => h, fun h _ => h, fun h _ => h⟩
  | mkTyp c =>
    unfold regStep
    by_cases hp : c ∈ tblIds s.allgroups
    · simp only [if_pos hp]
      refine ⟨fun h _ => h, ?_, fun h _ => h⟩
      intro hni hlt hin
      unfold tblIds at hin
      rw [List.map_append] at hin
      rcases List.mem_append.mp hin with hl | hr
      · exact hni hl
      · simp at hr
        omega
    · simp only [if_neg hp]
      exact ⟨fun h _ => h, fun h _ => h, fun h _ => h⟩
  | mkDim c =>
    unfold regStep
    by_cases hp : c ∈ tblIds s.allgroups
    · simp only [if_pos hp]
      refine ⟨fun h _ => h, fun h _ => h, ?_⟩
      intro hni hlt hin
      unfold tblIds at hin
      rw [List.map_append] at hin
      rcases List.mem_append.mp hin with hl | hr
      · exact hni hl
      · simp at hr
        omega
    · simp only [if_neg hp]
      exact ⟨fun h _ => h, fun h _ => h, fun h _ => h⟩
  | delGrp g =>
    unfold regStep
    by_cases hc : g ≠ 0 ∧ s.allgroups.all (fun e => !(e.2 == g) || (e.1 == g))
        ∧ s.alltypes.all (fun e => !(e.2 == g))
        ∧ s.alldims.all (fun e => !(e.2 == g))
    · simp only [if_pos hc]
      refine ⟨?_, fun h _ => h, fun h _ => h⟩
      intro hni _ hin
      exact hni (tblIds_filter_subset _ _ _ hin)
    · simp only [if_neg hc]
      exact ⟨fun h _ => h, fun h _ => h, fun h _ => h⟩
  | delTyp t =>
    unfold regStep
    refine ⟨fun h _ => h, ?_, fun h _ => h⟩
    intro hni _ hin
    exact hni (tblIds_filter_subset _ _ _ hin)
  | delDim d =>
    unfold regStep
    refine ⟨fun h _ => h, fun h _ => h, ?_⟩
    intro hni _ hin
    exact hni (tblIds_filter_subset _ _ _ hin)

/-- C4: over every sequence of create and delete operations, the per-kind
next-id counters only increase, an id already retired is never reused,
and each flat table maps every id to exactly one live object, each type
and dimension is contained in a live group and every group's parent chain
reaches the root. -/
theorem C4_registry (ops : List RegOp) :
    ((tblIds (regRun ops).allgroups).Nodup ∧
      (tblIds (regRun ops).alltypes).Nodup ∧
      (tblIds (regRun ops).alldims).Nodup) ∧
    (∀ op : RegOp,
      (regRun ops).next_nc_grpid ≤ (regStep (regRun ops) op).next_nc_grpid ∧
      (regRun ops).next_typeid ≤ (regStep (regRun ops) op).next_typeid ∧
      (regRun ops).next_dimid ≤ (regStep (regRun ops) op).next_dimid) ∧
    (∀ (op : RegOp) (i : Nat),
      (i ∉ tblIds (regRun ops).allgroups → i < (regRun ops).next_nc_grpid →
        i ∉ tblIds (regStep (regRun ops) op).allgroups) ∧
      (i ∉ tblIds (regRun ops).alltypes → i < (regRun ops).next_typeid →
        i ∉ tblIds (regStep (regRun ops) op).alltypes) ∧
      (i ∉ tblIds (regRun ops).alldims → i < (regRun ops).next_dimid →
        i ∉ tblIds (regStep (regRun ops) op).alldims)) ∧
    (∀ e ∈ (regRun ops).allgroups,
      chainB (regRun ops).allgroups e.1 e.1 = true) ∧
    (∀ e ∈ (regRun ops).alltypes, e.2 ∈ tblIds (regRun ops).allgroups) ∧
    (∀ e ∈ (regRun ops).alldims, e.2 ∈ tblIds (regRun ops).allgroups) := by
  obtain ⟨hroot, hndg, hndt, hndd, hbg, hbt, hbd, hclg, hz, hct, hcd⟩ :=
    regRun_inv ops
  refine ⟨⟨hndg, hndt, hndd⟩, fun op => regStep_counters (regRun ops) op,
    fun op i => regStep_no_reuse (regRun ops) op i, ?_, hct, hcd⟩
  intro e he
  exact chain_of_inv (regRun ops).allgroups hndg hclg e.1 e he rfl

/-- Witness for C4 at a concrete operation sequence. -/
theorem C4_registry_witness :
    chainB (regRun wRegOps).allgroups (1, 0).1 (1, 0).1 = true ∧
      2 ∉ tblIds (regStep (regRun wRegOps) (RegOp.mkGrp 0)).allgroups :=
  ⟨(C4_registry wRegOps).2.2.2.1 (1, 0) (by decide),
   ((C4_registry wRegOps).2.2.1 (RegOp.mkGrp 0) 2).1 (by decide) (by decide)⟩

/-- Type deletion can only fail with `TypeInUse`. -/
theorem delTypes_error : ∀ (ts : List Nat) (tt : RcTable) (e : NCerror),
    delTypes tt ts = .error e → e = .TypeInUse := by
  intro ts
  induction ts with
  | nil =>
    intro tt e h
    exact Except.noConfusion h
  | cons t rest ih =>
    intro tt e h
    by_cases hrc : rcOf tt t ≠ 0
    · simp [delTypes, hrc] at h
      exact h.symm
    · simp only [delTypes, hrc, if_false] at h
      cases hd : delTypes (rcRemove tt t) rest with
      | error e2 =>
        rw [hd] at h
        injection h with h1
        rw [← h1]
        exact ih (rcRemove tt t) e2 hd
      | ok p =>
        obtain ⟨tt2, tr⟩ := p
        rw [hd] at h
        exact Except.noConfusion h

/-- On success, type deletion deletes exactly the listed types, in order. -/
theorem delTypes_events : ∀ (ts : List Nat) (tt tt2 : RcTable) (tr : List DelEvent),
    delTypes tt ts = .ok (tt2, tr) → tr = ts.map DelEvent.typ := by
  intro ts
  induction ts with
  | nil =>
    intro tt tt2 tr h
    injection h with h1
    injection h1 with h2 h3
    rw [← h3]
    rfl
  | cons t rest ih =>
    intro tt tt2 tr h
    by_cases hrc : rcOf tt t ≠ 0
    · simp [delTypes, hrc] at h
    · simp only [delTypes, hrc, if_false] at h
      cases hd : delTypes (rcRemove tt t) rest with
      | error e =>
        rw [hd] at h
        exact Except.noConfusion h
      | ok p =>
        obtain ⟨tt3, tr3⟩ := p
        rw [hd] at h
        injection h with h1
        injection h1 with h2 h3
        rw [← h3, List.map_cons, ih (rcRemove tt t) tt3 tr3 hd]

/-- The dry-run type check succeeds exactly when destructive type deletion
does, with the same resulting table. -/
theorem canTypes_iff : ∀ (ts : List Nat) (tt tt2 : RcTable),
    canTypes tt ts = some tt2 ↔ ∃ tr, delTypes tt ts = .ok (tt2, tr) := by
  intro ts
  induction ts with
  | nil =>
    intro tt tt2
    constructor
    · intro h
      injection h with h1
      exact ⟨[], by rw [← h1]; rfl⟩
    · rintro ⟨tr, htr⟩
      injection htr with h1
      injection h1 with h2 h3
      rw [← h2]
      rfl
  | cons t rest ih =>
    intro tt tt2
    by_cases hrc : rcOf tt t ≠ 0
    · simp [canTypes, delTypes, hrc]
    · rw [show canTypes tt (t :: rest) = canTypes (rcRemove tt t) rest from by
        simp [canTypes, hrc]]
      rw [ih (rcRemove tt t) tt2]
      constructor
      · rintro ⟨tr, htr⟩
        exact ⟨.typ t :: tr, by simp [delTypes, hrc, htr]⟩
      · rintro ⟨tr, htr⟩
        simp only [delTypes, hrc, if_false] at htr
        cases hd : delTypes (rcRemove tt t) rest with
        | error e =>
          rw [hd] at htr
          exact Except.noConfusion htr
        | ok p =>
          obtain ⟨tt3, tr3⟩ := p
          rw [hd] at htr
          injection htr with h1
          injection h1 with h2 h3
          exact ⟨tr3, by rw [h2]⟩

mutual
/-- Pre-validation of a subtree succeeds exactly when the destructive phase
would succeed, with the same resulting type table. -/
theorem canDelG_iff : ∀ (tt : RcTable) (g : GGroup) (tt2 : RcTable),
    canDelG tt g = some tt2 ↔ ∃ tr, delRecG tt g = .ok (tt2, tr)
  | tt, .node gid vs ts ds as2 cs, tt2 => by
    cases hL : canDelL tt cs with
    | none =>
      constructor
      · intro h
        simp [canDelG, hL] at h
      · rintro ⟨tr, htr⟩
        simp only [delRecG] at htr
        cases hd : delRecL tt cs with
        | error e =>
          rw [hd] at htr
          exact Except.noConfusion htr
        | ok p =>
          obtain ⟨tt1, tr1⟩ := p
          have hsome := (canDelL_iff tt cs tt1).mpr ⟨tr1, hd⟩
          rw [hL] at hsome
          exact Option.noConfusion hsome
    | some tt1 =>
      obtain ⟨tr1, hd⟩ := (canDelL_iff tt cs tt1).mp hL
      constructor
      · intro h
        simp only [canDelG, hL] at h
        obtain ⟨trt, hdt⟩ := (canTypes_iff ts (releaseVars tt1 vs) tt2).mp h
        refine ⟨tr1 ++ vs.map (fun v => DelEvent.var v.vid) ++ trt
          ++ ds.map DelEvent.dim ++ as2.map DelEvent.att ++ [DelEvent.grp gid], ?_⟩
        simp [delRecG, hd, hdt]
      · rintro ⟨tr, htr⟩
        simp only [delRecG, hd] at htr
        cases hdt : delTypes (releaseVars tt1 vs) ts with
        | error e =>
          rw [hdt] at htr
          exact Except.noConfusion htr
        | ok p =>
          obtain ⟨tt3, trt⟩ := p
          rw [hdt] at htr
          injection htr with h1
          injection h1 with h2 h3
          simp only [canDelG, hL]
          exact (canTypes_iff ts (releaseVars tt1 vs) tt2).mpr
            ⟨trt, by rw [h2] at hdt; exact hdt⟩

/-- Pre-validation of sibling subtrees succeeds exactly when their
destructive deletion would succeed, with the same resulting table. -/
theorem canDelL_iff : ∀ (tt : RcTable) (cs : List GGroup) (tt2 : RcTable),
    canDelL tt cs = some tt2 ↔ ∃ tr, delRecL tt cs = .ok (tt2, tr)
  | tt, [], tt2 => by
    constructor
    · intro h
      injection h with h1
      exact ⟨[], by rw [← h1]; rfl⟩
    · rintro ⟨tr, htr⟩
      injection htr with h1
      injection h1 with h2 h3
      rw [← h2]
      rfl
  | tt, c :: rest, tt2 => by
    cases hG : canDelG tt c with
    | none =>
      constructor
      · intro h
        simp [canDelL, hG] at h
      · rintro ⟨tr, htr⟩
        simp only [delRecL] at htr
        cases hd : delRecG tt c with
        | error e =>
          rw [hd] at htr
          exact Except.noConfusion htr
        | ok p =>
          obtain ⟨tt1, tr1⟩ := p
          have hsome := (canDelG_iff tt c tt1).mpr ⟨tr1, hd⟩
          rw [hG] at hsome
          exact Option.noConfusion hsome
    | some tt1 =>
      obtain ⟨tr1, hd⟩ := (canDelG_iff tt c tt1).mp hG
      rw [show canDelL tt (c :: rest) = canDelL tt1 rest from by
        simp [canDelL, hG]]
      rw [canDelL_iff tt1 rest tt2]
      constructor
      · rintro ⟨tr2, hd2⟩
        exact ⟨tr1 ++ tr2, by simp [delRecL, hd, hd2]⟩
      · rintro ⟨tr, htr⟩
        simp only [delRecL, hd] at htr
        cases hd2 : delRecL tt1 rest with
        | error e =>
          rw [hd2] at htr
          exact Except.noConfusion htr
        | ok p =>
          obtain ⟨tt3, tr3⟩ := p
          rw [hd2] at htr
          injection htr with h1
          injection h1 with h2 h3
          exact ⟨tr3, by rw [h2]⟩
end

mutual
/-- The destructive phase can only fail with `TypeInUse`. -/
theorem delRecG_error : ∀ (tt : RcTable) (g : GGroup) (e : NCerror),
    delRecG tt g = .error e → e = .TypeInUse
  | tt, .node gid vs ts ds as2 cs, e => by
    intro h
    simp only [delRecG] at h
    cases hd : delRecL tt cs with
    | error e2 =>
      simp only [hd] at h
      injection h with h1
      rw [← h1]
      exact delRecL_error tt cs e2 hd
    | ok p =>
      obtain ⟨tt1, tr1⟩ := p
      simp only [hd] at h
      cases hdt : delTypes (releaseVars tt1 vs) ts with
      | error e3 =>
        simp only [hdt] at h
        injection h with h1
        rw [← h1]
        exact delTypes_error ts (releaseVars tt1 vs) e3 hdt
      | ok p2 =>
        obtain ⟨tt3, trt⟩ := p2
        simp [hdt] at h

/-- Destructive deletion of siblings can only fail with `TypeInUse`. -/
theorem delRecL_error : ∀ (tt : RcTable) (cs : List GGroup) (e : NCerror),
    delRecL tt cs = .error e → e = .TypeInUse
  | tt, [], e => by
    intro h
    exact Except.noConfusion h
  | tt, c :: rest, e => by
    intro h
    simp only [delRecL] at h
    cases hd : delRecG tt c with
    | error e2 =>
      simp only [hd] at h
      injection h with h1
      rw [← h1]
      exact delRecG_error tt c e2 hd
    | ok p =>
      obtain ⟨tt1, tr1⟩ := p
      simp only [hd] at h
      cases hd2 : delRecL tt1 rest with
      | error e2 =>
        simp only [hd2] at h
        injection h with h1
        rw [← h1]
        exact delRecL_error tt1 rest e2 hd2
      | ok p2 =>
        obtain ⟨tt2, tr2⟩ := p2
        simp [hd2] at h
end

/-- C3: `nc4_rec_grp_del` validates top-down before mutating anything —
pre-validation succeeds exactly when the destructive phase would, so a
deep failure is detected up front; on failure the wrapper returns the
graph exactly as it was, with no deletion event, and the only failure is
`TypeInUse` (a type whose reference count is still nonzero when its
deletion is attempted); on success the deletion runs bottom-up in the
order: all child groups, then variables (releasing their type
references), then the group's own types, then dimensions, then
attributes, then the group itself. -/
theorem C3_recursive_group_delete (tt : RcTable) (gid : Nat) (vs : List GVar)
    (ts ds as2 : List Nat) (cs : List GGroup) :
    (∀ tt2, canDelG tt (.node gid vs ts ds as2 cs) = some tt2 ↔
      ∃ tr, delRecG tt (.node gid vs ts ds as2 cs) = .ok (tt2, tr)) ∧
    ((nc4_rec_grp_del tt (.node gid vs ts ds as2 cs)).2 = none ↔
      canDelG tt (.node gid vs ts ds as2 cs) = none) ∧
    ((nc4_rec_grp_del tt (.node gid vs ts ds as2 cs)).2 = none →
      (nc4_rec_grp_del tt (.node gid vs ts ds as2 cs)).1 = tt) ∧
    (∀ e, delRecG tt (.node gid vs ts ds as2 cs) = .error e →
      e = .TypeInUse) ∧
    (∀ tt2 tr, delRecG tt (.node gid vs ts ds as2 cs) = .ok (tt2, tr) →
      ∃ tt1 tr1 trt,
        delRecL tt cs = .ok (tt1, tr1) ∧
        delTypes (releaseVars tt1 vs) ts = .ok (tt2, trt) ∧
        trt = ts.map DelEvent.typ ∧
        tr = tr1 ++ vs.map (fun v => DelEvent.var v.vid) ++ trt
          ++ ds.map DelEvent.dim ++ as2.map DelEvent.att
          ++ [DelEvent.grp gid]) := by
  refine ⟨fun tt2 => canDelG_iff tt _ tt2, ?_, ?_,
    fun e => delRecG_error tt _ e, ?_⟩
  · unfold nc4_rec_grp_del
    cases hc : canDelG tt (.node gid vs ts ds as2 cs) with
    | none => simp
    | some tt1 =>
      obtain ⟨tr, hd⟩ := (canDelG_iff tt _ tt1).mp hc
      simp [hd]
  · unfold nc4_rec_grp_del
    cases hc : canDelG tt (.node gid vs ts ds as2 cs) with
    | none =>
      intro _
      simp
    | some tt1 =>
      obtain ⟨tr, hd⟩ := (canDelG_iff tt _ tt1).mp hc
      intro hnone
      simp [hd] at hnone
  · intro tt2 tr hok
    simp only [delRecG] at hok
    cases hd : delRecL tt cs with
    | error e =>
      simp only [hd] at hok
      exact Except.noConfusion hok
    | ok p =>
      obtain ⟨tt1, tr1⟩ := p
      simp only [hd] at hok
      cases hdt : delTypes (releaseVars tt1 vs) ts with
      | error e =>
        simp only [hdt] at hok
        exact Except.noConfusion hok
      | ok p2 =>
        obtain ⟨tt3, trt⟩ := p2
        simp only [hdt] at hok
        injection hok with h1
        injection h1 with h2 h3
        refine ⟨tt1, tr1, trt, rfl, ?_, delTypes_events ts _ tt3 trt hdt, h3.symm⟩
        rw [h2] at hdt
        exact hdt

/-- Witness for C3 at a concrete subtree: with an external reference left
(reference count 2, only 1 released inside), the wrapper leaves the table
untouched; with no external reference, deletion succeeds and the trace is
in bottom-up order. -/
theorem C3_recursive_group_delete_witness :
    (nc4_rec_grp_del [(10, 2)] (.node 1 [⟨5, 10⟩] [10] [3] [4] [])).1
        = [(10, 2)] ∧
      ∃ tt1 tr1 trt,
        delRecL [(10, 1)] [] = .ok (tt1, tr1) ∧
        delTypes (releaseVars tt1 [⟨5, 10⟩]) [10] = .ok ([], trt) ∧
        trt = [10].map DelEvent.typ ∧
        [DelEvent.var 5, DelEvent.typ 10, DelEvent.dim 3, DelEvent.att 4,
            DelEvent.grp 1]
          = tr1 ++ [GVar.mk 5 10].map (fun v => DelEvent.var v.vid) ++ trt
            ++ [3].map DelEvent.dim ++ [4].map DelEvent.att
            ++ [DelEvent.grp 1] :=
  ⟨(C3_recursive_group_delete [(10, 2)] 1 [⟨5, 10⟩] [10] [3] [4] []).2.2.1 rfl,
   (C3_recursive_group_delete [(10, 1)] 1 [⟨5, 10⟩] [10] [3] [4] []).2.2.2.2
     [] [DelEvent.var 5, .typ 10, .dim 3, .att 4, .grp 1] rfl⟩
